import Mathlib

/-!
Verification development for the notify-pr-review GitHub Action.
Strings from the JavaScript source are modelled as lists of characters
(`Str`), and the asynchronous Slack / GitHub API calls are modelled as
oracle functions passed in as parameters.
-/

namespace NotifyPR

abbrev Str := List Char

/-- Boolean test that `p` is a prefix of `s` (JS `String.prototype.startsWith`). -/
def leadsWith : Str → Str → Bool
  | [], _ => true
  | _ :: _, [] => false
  | a :: p, b :: s => a = b && leadsWith p s

/-- Boolean test that `p` is a suffix of `s` (JS `String.prototype.endsWith`). -/
def endsWithC (p s : Str) : Bool := leadsWith p.reverse s.reverse

/-- Boolean test that `n` occurs as a contiguous substring of `h`
(JS `String.prototype.includes`). -/
def hasRun (n : Str) : Str → Bool
  | [] => n.isEmpty
  | b :: t => leadsWith n (b :: t) || hasRun n t

theorem leadsWith_iff (p s : Str) : leadsWith p s = true ↔ ∃ t, s = p ++ t := by
  induction p generalizing s with
  | nil => simp [leadsWith]
  | cons a p ih =>
    cases s with
    | nil => simp [leadsWith]
    | cons b s =>
      simp only [leadsWith, Bool.and_eq_true, decide_eq_true_eq, ih, List.cons_append,
        List.cons.injEq]
      constructor
      · rintro ⟨rfl, t, rfl⟩; exact ⟨t, rfl, rfl⟩
      · rintro ⟨t, rfl, rfl⟩; exact ⟨rfl, t, rfl⟩

theorem leadsWith_self_append (p t : Str) : leadsWith p (p ++ t) = true :=
  (leadsWith_iff p (p ++ t)).2 ⟨t, rfl⟩

theorem leadsWith_cons_of_ne {a b : Char} (p s : Str) (h : a ≠ b) :
    leadsWith (a :: p) (b :: s) = false := by
  simp [leadsWith, h]

theorem endsWithC_iff (p s : Str) : endsWithC p s = true ↔ ∃ t, s = t ++ p := by
  unfold endsWithC
  rw [leadsWith_iff]
  constructor
  · rintro ⟨t, ht⟩
    refine ⟨t.reverse, ?_⟩
    have := congrArg List.reverse ht
    simpa using this
  · rintro ⟨t, rfl⟩
    exact ⟨t.reverse, by simp⟩

theorem hasRun_iff (n h : Str) : hasRun n h = true ↔ ∃ u v, h = u ++ n ++ v := by
  induction h with
  | nil =>
    simp only [hasRun, List.isEmpty_iff]
    constructor
    · rintro rfl; exact ⟨[], [], rfl⟩
    · rintro ⟨u, v, huv⟩
      rcases List.append_eq_nil.1 huv.symm with ⟨h1, h2⟩
      exact (List.append_eq_nil.1 h1).2
  | cons b t ih =>
    simp only [hasRun, Bool.or_eq_true, leadsWith_iff, ih]
    constructor
    · rintro (⟨u, hu⟩ | ⟨u, v, rfl⟩)
      · exact ⟨[], u, by simp [hu]⟩
      · exact ⟨b :: u, v, by simp⟩
    · rintro ⟨u, v, huv⟩
      cases u with
      | nil => exact Or.inl ⟨v, by simpa using huv⟩
      | cons c u =>
        right
        refine ⟨u, v, ?_⟩
        have : b = c ∧ t = u ++ n ++ v := by
          simpa using huv
        simp [this.2]

/-- If the match needle fits inside `u`, matching against `u ++ v` only looks at `u`. -/
theorem leadsWith_append_of_le (p u v : Str) (h : p.length ≤ u.length) :
    leadsWith p (u ++ v) = leadsWith p u := by
  induction p generalizing u with
  | nil => simp [leadsWith]
  | cons a p ih =>
    cases u with
    | nil => simp at h
    | cons b u =>
      simp only [List.cons_append, leadsWith, List.append_eq]
      rw [ih u (by simpa using h)]

theorem hasRun_of_leadsWith_drop (n h : Str) (i : Nat)
    (hl : leadsWith n (h.drop i) = true) : hasRun n h = true := by
  induction h generalizing i with
  | nil =>
    simp only [List.drop_nil] at hl
    cases n with
    | nil => simp [hasRun]
    | cons a p => simp [leadsWith] at hl
  | cons b t ih =>
    cases i with
    | zero =>
      simp only [List.drop_zero] at hl
      simp [hasRun, hl]
    | succ j =>
      simp only [List.drop_succ_cons] at hl
      simp [hasRun, ih j hl]

/-- First index of `x` in `l` (length of `l` when absent). -/
def firstIdx {α : Type} [DecidableEq α] (x : α) : List α → Nat
  | [] => 0
  | a :: l => if a = x then 0 else firstIdx x l + 1

/-- Deduplication keeping the first occurrence of each element, in order:
the semantics of the JS idiom spread of `new Set(list)` into an array. -/
def dedupFGo {α : Type} [DecidableEq α] (seen : List α) : List α → List α
  | [] => []
  | a :: l => if a ∈ seen then dedupFGo seen l else a :: dedupFGo (a :: seen) l

def dedupF {α : Type} [DecidableEq α] (l : List α) : List α := dedupFGo [] l

theorem mem_dedupFGo {α : Type} [DecidableEq α] (seen l : List α) (x : α) :
    x ∈ dedupFGo seen l ↔ x ∈ l ∧ x ∉ seen := by
  induction l generalizing seen with
  | nil => simp [dedupFGo]
  | cons a l ih =>
    simp only [dedupFGo]
    by_cases ha : a ∈ seen
    · rw [if_pos ha, ih seen]
      simp only [List.mem_cons]
      constructor
      · rintro ⟨hx, hns⟩; exact ⟨Or.inr hx, hns⟩
      · rintro ⟨hx | hx, hns⟩
        · subst hx; exact absurd ha hns
        · exact ⟨hx, hns⟩
    · rw [if_neg ha]
      simp only [List.mem_cons, ih (a :: seen), List.mem_cons]
      constructor
      · rintro (rfl | ⟨hx, hns⟩)
        · exact ⟨Or.inl rfl, ha⟩
        · exact ⟨Or.inr hx, fun hc => hns (Or.inr hc)⟩
      · rintro ⟨rfl | hx, hns⟩
        · exact Or.inl rfl
        · by_cases hxa : x = a
          · exact Or.inl hxa
          · exact Or.inr ⟨hx, by simp [hxa, hns]⟩

theorem mem_dedupF {α : Type} [DecidableEq α] (l : List α) (x : α) :
    x ∈ dedupF l ↔ x ∈ l := by
  simp [dedupF, mem_dedupFGo]

theorem nodup_dedupFGo {α : Type} [DecidableEq α] (seen l : List α) :
    (dedupFGo seen l).Nodup := by
  induction l generalizing seen with
  | nil => simp [dedupFGo]
  | cons a l ih =>
    by_cases ha : a ∈ seen
    · simpa [dedupFGo, ha] using ih seen
    · simp only [dedupFGo, if_neg ha, List.nodup_cons]
      refine ⟨fun hc => ?_, ih (a :: seen)⟩
      exact ((mem_dedupFGo _ _ _).1 hc).2 (List.mem_cons_self a seen)

theorem nodup_dedupF {α : Type} [DecidableEq α] (l : List α) : (dedupF l).Nodup :=
  nodup_dedupFGo [] l

theorem firstIdx_cons_of_ne {α : Type} [DecidableEq α] (a x : α) (l : List α)
    (h : a ≠ x) : firstIdx x (a :: l) = firstIdx x l + 1 := by
  simp [firstIdx, h]

theorem pairwise_firstIdx_dedupFGo {α : Type} [DecidableEq α] (l : List α) :
    ∀ seen, (dedupFGo seen l).Pairwise (fun x y => firstIdx x l < firstIdx y l) := by
  induction l with
  | nil => intro seen; simp [dedupFGo]
  | cons a l ih =>
    intro seen
    by_cases ha : a ∈ seen
    · simp only [dedupFGo, if_pos ha]
      refine List.Pairwise.imp_of_mem ?_ (ih seen)
      intro x y hx hy hlt
      have hxa : a ≠ x := fun h => ((mem_dedupFGo _ _ _).1 hx).2 (h ▸ ha)
      have hya : a ≠ y := fun h => ((mem_dedupFGo _ _ _).1 hy).2 (h ▸ ha)
      rw [firstIdx_cons_of_ne a x l hxa, firstIdx_cons_of_ne a y l hya]
      omega
    · simp only [dedupFGo, if_neg ha]
      refine List.Pairwise.cons ?_ ?_
      · intro y hy
        have hya : a ≠ y := fun h =>
          ((mem_dedupFGo _ _ _).1 hy).2 (h ▸ List.mem_cons_self a seen)
        rw [firstIdx_cons_of_ne a y l hya]
        simp [firstIdx]
      · refine List.Pairwise.imp_of_mem ?_ (ih (a :: seen))
        intro x y hx hy hlt
        have hxa : a ≠ x := fun h =>
          ((mem_dedupFGo _ _ _).1 hx).2 (h ▸ List.mem_cons_self a seen)
        have hya : a ≠ y := fun h =>
          ((mem_dedupFGo _ _ _).1 hy).2 (h ▸ List.mem_cons_self a seen)
        rw [firstIdx_cons_of_ne a x l hxa, firstIdx_cons_of_ne a y l hya]
        omega

theorem pairwise_firstIdx_dedupF {α : Type} [DecidableEq α] (l : List α) :
    (dedupF l).Pairwise (fun x y => firstIdx x l < firstIdx y l) :=
  pairwise_firstIdx_dedupFGo l []

/-- Insertion into an insertion-ordered set: the semantics of `Set.prototype.add`. -/
def oInsert {α : Type} [DecidableEq α] (l : List α) (a : α) : List α :=
  if a ∈ l then l else l ++ [a]

theorem mem_oInsert {α : Type} [DecidableEq α] (l : List α) (a x : α) :
    x ∈ oInsert l a ↔ x ∈ l ∨ x = a := by
  unfold oInsert
  by_cases h : a ∈ l
  · simp only [if_pos h]
    constructor
    · exact Or.inl
    · rintro (hx | rfl)
      · exact hx
      · exact h
  · simp [if_neg h]

/-- The body of a loop that pushes `f u` onto the accumulator when it
resolves and keeps the accumulator otherwise. -/
def pushResolved {α β : Type} (f : α → Option β) (acc : List β) (u : α) : List β :=
  match f u with
  | some b => acc ++ [b]
  | none => acc

/-- A loop that pushes `f u` when it resolves equals `filterMap`. -/
theorem foldl_push_filterMap {α β : Type} (f : α → Option β) (l : List α)
    (acc : List β) :
    l.foldl (pushResolved f) acc = acc ++ l.filterMap f := by
  induction l generalizing acc with
  | nil => simp
  | cons u l ih =>
    cases hu : f u with
    | none => simp [List.foldl_cons, pushResolved, hu, ih, List.filterMap_cons]
    | some b => simp [List.foldl_cons, pushResolved, hu, ih, List.filterMap_cons]

/-! Mention extractor, from src/github.js (extractMentions). -/

def isAlnum (c : Char) : Bool :=
  ('a' ≤ c && c ≤ 'z') || ('A' ≤ c && c ≤ 'Z') || ('0' ≤ c && c ≤ '9')

def isWordC (c : Char) : Bool := isAlnum c || c = '-'

/-- Strip the trailing run of non-alphanumeric characters (within a handle body
these are hyphens): the backtracking of the greedy tail of the mention regex. -/
def trimH (r : Str) : Str :=
  (r.reverse.dropWhile (fun c => !(isAlnum c))).reverse

/-- Left-to-right scan for the matches of the mention regex
(at-sign, one alphanumeric, then an optional run of alphanumerics or hyphens
that must end in an alphanumeric), resuming after each match as JS
`String.prototype.matchAll` does, with the remaining length as structural
fuel. Returns the captured handles in text order. -/
def scanMentionsF : Nat → Str → List Str
  | 0, _ => []
  | _ + 1, [] => []
  | _ + 1, [_] => []
  | n + 1, a :: c :: rest2 =>
    if a = '@' then
      if isAlnum c then
        (c :: trimH (rest2.takeWhile isWordC))
          :: scanMentionsF n (rest2.drop (trimH (rest2.takeWhile isWordC)).length)
      else scanMentionsF n (c :: rest2)
    else scanMentionsF n (c :: rest2)

def scanMentions (t : Str) : List Str := scanMentionsF t.length t

/-- The mention extractor from src/github.js: regex scan, then deduplication
by the JS spread of a `Set`, which keeps first occurrences in order. -/
def extractMentions (text : Str) : List Str := dedupF (scanMentions text)

theorem scanMentionsF_nil (m : Nat) : scanMentionsF m [] = [] := by
  cases m with
  | zero => rfl
  | succ n => rfl

theorem scanMentionsF_congr :
    ∀ (n : Nat) (m : Nat) (t : Str), t.length ≤ n → t.length ≤ m →
      scanMentionsF n t = scanMentionsF m t := by
  intro n
  induction n with
  | zero =>
    intro m t ht _
    have : t = [] := List.eq_nil_of_length_eq_zero (Nat.le_zero.1 ht)
    subst this
    rw [scanMentionsF_nil, scanMentionsF_nil]
  | succ n ih =>
    intro m t ht hm
    cases t with
    | nil => rw [scanMentionsF_nil, scanMentionsF_nil]
    | cons a rest =>
      cases m with
      | zero => simp at hm
      | succ m' =>
        cases rest with
        | nil => rfl
        | cons c rest2 =>
          simp only [List.length_cons] at ht hm
          rw [scanMentionsF, scanMentionsF]
          by_cases ha : a = '@'
          · rw [if_pos ha, if_pos ha]
            by_cases hc : isAlnum c = true
            · rw [if_pos hc, if_pos hc]
              have hlen : (rest2.drop
                  (trimH (rest2.takeWhile isWordC)).length).length ≤ rest2.length := by
                simp only [List.length_drop]
                omega
              rw [ih m' _ (by omega) (by omega)]
            · rw [if_neg hc, if_neg hc]
              exact ih m' (c :: rest2) (by simp only [List.length_cons]; omega)
                (by simp only [List.length_cons]; omega)
          · rw [if_neg ha, if_neg ha]
            exact ih m' (c :: rest2) (by simp only [List.length_cons]; omega)
              (by simp only [List.length_cons]; omega)

theorem scanMentions_nil : scanMentions [] = [] := rfl

theorem scanMentions_one (a : Char) : scanMentions [a] = [] := rfl

theorem scanMentions_cons_ne (a : Char) (rest : Str) (ha : ¬ a = '@') :
    scanMentions (a :: rest) = scanMentions rest := by
  cases rest with
  | nil => rfl
  | cons c rest2 =>
    simp only [scanMentions, List.length_cons]
    rw [scanMentionsF, if_neg ha]

theorem scanMentions_at_alnum (c : Char) (rest2 : Str) (hc : isAlnum c = true) :
    scanMentions ('@' :: c :: rest2) =
      (c :: trimH (rest2.takeWhile isWordC)) ::
        scanMentions (rest2.drop (trimH (rest2.takeWhile isWordC)).length) := by
  simp only [scanMentions, List.length_cons]
  rw [scanMentionsF, if_pos rfl, if_pos hc]
  have hlen : (rest2.drop (trimH (rest2.takeWhile isWordC)).length).length
      ≤ rest2.length := by
    simp only [List.length_drop]
    omega
  rw [scanMentionsF_congr (rest2.length + 1) _ _ (by omega) le_rfl]

theorem scanMentions_at_not_alnum (c : Char) (rest2 : Str)
    (hc : ¬ isAlnum c = true) :
    scanMentions ('@' :: c :: rest2) = scanMentions (c :: rest2) := by
  simp only [scanMentions, List.length_cons]
  rw [scanMentionsF, if_pos rfl, if_neg hc]

theorem dropWhile_head_alnum :
    ∀ (l : List Char) d t, l.dropWhile (fun c => !(isAlnum c)) = d :: t →
      isAlnum d = true := by
  intro l
  induction l with
  | nil => intro d t h; simp [List.dropWhile] at h
  | cons a l ih =>
    intro d t h
    by_cases ha : isAlnum a = true
    · rw [List.dropWhile_cons] at h
      simp only [ha, Bool.not_true, Bool.false_eq_true, if_false] at h
      obtain ⟨rfl, rfl⟩ := List.cons.inj h
      exact ha
    · rw [List.dropWhile_cons] at h
      simp only [Bool.not_eq_true] at ha
      simp only [ha, Bool.not_false, if_true] at h
      exact ih d t h

theorem trimH_shape (r : Str) :
    trimH r = [] ∨ ∃ d g, trimH r = g ++ [d] ∧ isAlnum d = true := by
  unfold trimH
  cases hd : r.reverse.dropWhile (fun c => !(isAlnum c)) with
  | nil => exact Or.inl rfl
  | cons d t =>
    right
    exact ⟨d, t.reverse, by simp [hd], dropWhile_head_alnum r.reverse d t hd⟩

/-- Shape of every scanned mention: nonempty, alphanumeric first and last
character. -/
theorem scanMentions_shape (t : Str) :
    ∀ h ∈ scanMentions t, ∃ c g, h = c :: g ∧ isAlnum c = true ∧
      (∃ d, (c :: g).getLast? = some d ∧ isAlnum d = true) := by
  suffices H : ∀ n (t : Str), t.length ≤ n → ∀ h ∈ scanMentions t,
      ∃ c g, h = c :: g ∧ isAlnum c = true ∧
        (∃ d, (c :: g).getLast? = some d ∧ isAlnum d = true) from
    H t.length t le_rfl
  intro n
  induction n with
  | zero =>
    intro t ht h hh
    have : t = [] := List.eq_nil_of_length_eq_zero (Nat.le_zero.1 ht)
    subst this
    rw [scanMentions_nil] at hh
    simp at hh
  | succ n ih =>
    intro t ht h hh
    match t with
    | [] => rw [scanMentions_nil] at hh; simp at hh
    | a :: rest =>
      by_cases ha : a = '@'
      · subst ha
        match rest with
        | [] => rw [scanMentions_one] at hh; simp at hh
        | c :: rest2 =>
          by_cases hc : isAlnum c = true
          · rw [scanMentions_at_alnum c rest2 hc] at hh
            rcases List.mem_cons.1 hh with rfl | hh
            · refine ⟨c, trimH (rest2.takeWhile isWordC), rfl, hc, ?_⟩
              rcases trimH_shape (rest2.takeWhile isWordC) with hg | ⟨d, g', hg, hd⟩
              · rw [hg]
                exact ⟨c, show ([] ++ [c]).getLast? = some c from List.getLast?_concat _, hc⟩
              · rw [hg]
                exact ⟨d, show ((c :: g') ++ [d]).getLast? = some d from List.getLast?_concat _, hd⟩
            · refine ih (rest2.drop (trimH (rest2.takeWhile isWordC)).length) ?_ h hh
              simp only [List.length_drop]
              simp only [List.length_cons] at ht
              omega
          · rw [scanMentions_at_not_alnum c rest2 hc] at hh
            refine ih (c :: rest2) ?_ h hh
            simp only [List.length_cons] at ht ⊢
            omega
      · rw [scanMentions_cons_ne a rest ha] at hh
        refine ih rest ?_ h hh
        simp only [List.length_cons] at ht
        omega

/-! Thread-pointer markers embedded in the PR body.
The reading side models the JS regex match of a marker comment with a lazy
one-or-more capture of non-newline characters: the engine tries each start
position from the left, and at a matching position takes the shortest
non-empty newline-free capture followed by the closing delimiter. -/

def closer : Str := " -->".data

def preTs : Str := "<!-- slack-thread-ts: ".data

def preSt : Str := "<!-- slack-status: ".data

/-- Lazy capture after the marker prefix: consume at least one non-newline
character, stopping as soon as the closing delimiter follows. -/
def scanCap (acc : Str) : Str → Option Str
  | [] => none
  | c :: rest =>
    if c = '\n' then none
    else if leadsWith closer rest then some (acc ++ [c])
    else scanCap (acc ++ [c]) rest

/-- Leftmost regex match: try each start position; at a position where the
prefix matches, attempt the lazy capture, else move one character right. -/
def findCapture (pre : Str) : Str → Option Str
  | [] => none
  | c :: rest =>
    if leadsWith pre (c :: rest) then
      match scanCap [] ((c :: rest).drop pre.length) with
      | some x => some x
      | none => findCapture pre rest
    else findCapture pre rest

/-- Read-back of the thread timestamp marker, from getSlackThreadTs in
src/github.js (regex on the fetched PR body). -/
def readTs (body : Str) : Option Str := findCapture preTs body

/-- Modelled from the spec: the status read-back function (getPRStatus) is not
under src/ (only its caller is); per the spec the status marker has the layout
of the thread-ts marker with key slack-status and is extracted by the same
tolerant pattern. -/
def readStatus (body : Str) : Option Str := findCapture preSt body

/-- Appending both markers to the PR body, from the PR-opened handler
(octokit.rest.pulls.update call). -/
def writeMarkers (body ts status : Str) : Str :=
  body ++ "\n\n<!-- slack-thread-ts: ".data ++ ts ++ " -->".data
    ++ "\n<!-- slack-status: ".data ++ status ++ " -->".data

theorem dataTs : "\n\n<!-- slack-thread-ts: ".data = '\n' :: '\n' :: preTs := rfl

theorem dataSt : "\n<!-- slack-status: ".data = '\n' :: preSt := rfl

theorem writeMarkers_regroup (body ts status : Str) :
    writeMarkers body ts status =
      body ++ ('\n' :: '\n' :: (preTs ++ (ts ++ (closer ++
        ('\n' :: (preSt ++ (status ++ closer))))))) := by
  rw [writeMarkers, dataTs, dataSt]
  simp [List.append_assoc, closer]

/-- A capture value is clean when the closing delimiter cannot match at any
position strictly inside it. -/
def capClean (x : Str) : Prop :=
  ∀ j < x.length, 0 < j → leadsWith closer (x.drop j ++ closer) = false

instance (x : Str) : Decidable (capClean x) := by
  unfold capClean
  infer_instance

theorem scanCap_exact (x : Str) :
    ∀ (acc r : Str), x ≠ [] → ('\n' ∉ x) → capClean x →
      scanCap acc (x ++ (closer ++ r)) = some (acc ++ x) := by
  induction x with
  | nil => intro acc r hne _ _; exact absurd rfl hne
  | cons c x ih =>
    intro acc r _ hnl hcl
    have hc : ¬ c = '\n' := fun h => hnl (h ▸ List.mem_cons_self c x)
    rw [List.cons_append, scanCap, if_neg hc]
    by_cases hx : x = []
    · subst hx
      rw [List.nil_append, if_pos (leadsWith_self_append closer r)]
    · have hfalse : leadsWith closer (x ++ (closer ++ r)) = false := by
        have h2 : 1 < (c :: x).length := by
          cases x with
          | nil => exact absurd rfl hx
          | cons d t => simp
        have h3 := hcl 1 h2 Nat.one_pos
        simp only [List.drop_succ_cons, List.drop_zero] at h3
        calc leadsWith closer (x ++ (closer ++ r))
            = leadsWith closer ((x ++ closer) ++ r) := by rw [List.append_assoc]
          _ = leadsWith closer (x ++ closer) :=
              leadsWith_append_of_le _ _ _ (by simp [closer])
          _ = false := h3
      rw [if_neg (by rw [hfalse]; simp)]
      have hcap : capClean x := by
        intro j hj hj0
        have := hcl (j + 1) (by simp only [List.length_cons]; omega) (Nat.succ_pos j)
        simpa using this
      rw [ih (acc ++ [c]) r hx (fun h => hnl (List.mem_cons_of_mem c h)) hcap]
      simp

theorem findCapture_cons_neg (pre : Str) (c : Char) (s : Str)
    (h : leadsWith pre (c :: s) = false) :
    findCapture pre (c :: s) = findCapture pre s := by
  rw [findCapture, if_neg (by simp [h])]

theorem findCapture_skip (pre u v : Str)
    (h : ∀ i < u.length, leadsWith pre (u.drop i ++ v) = false) :
    findCapture pre (u ++ v) = findCapture pre v := by
  induction u with
  | nil => simp
  | cons c u ih =>
    have h0 := h 0 (by simp)
    simp only [List.drop_zero, List.cons_append] at h0
    rw [List.cons_append, findCapture_cons_neg pre c (u ++ v) h0]
    refine ih fun i hi => ?_
    have := h (i + 1) (by simp only [List.length_cons]; omega)
    simpa using this

theorem skip_cond (pre u v : Str) (hru : hasRun pre u = false)
    (hnl : '\n' ∉ pre) (_hpre : pre ≠ []) (w : Str) (hv : v = '\n' :: w) :
    ∀ i < u.length, leadsWith pre (u.drop i ++ v) = false := by
  intro i hi
  by_contra hcon
  rw [Bool.not_eq_false] at hcon
  rcases Nat.lt_or_ge (u.drop i).length pre.length with hlt | hle
  · rcases (leadsWith_iff pre (u.drop i ++ v)).1 hcon with ⟨z, hz⟩
    have hget : (u.drop i ++ v)[(u.drop i).length]? = some '\n' := by
      rw [List.getElem?_append_right (Nat.le_refl _)]
      simp [hv]
    rw [hz, List.getElem?_append_left hlt] at hget
    rcases List.getElem?_eq_some.1 hget with ⟨hlen2, hval⟩
    exact hnl (hval ▸ List.getElem_mem hlen2)
  · rw [leadsWith_append_of_le pre (u.drop i) v hle] at hcon
    rw [hasRun_of_leadsWith_drop pre u i hcon] at hru
    exact absurd hru (by simp)

theorem findCapture_hit (pre t x : Str) (hpre : pre ≠ [])
    (h : scanCap [] t = some x) : findCapture pre (pre ++ t) = some x := by
  cases pre with
  | nil => exact absurd rfl hpre
  | cons a p =>
    rw [List.cons_append, findCapture,
      if_pos (by rw [← List.cons_append]; exact leadsWith_self_append _ t)]
    have hd : ((a :: p) ++ t).drop (a :: p).length = t := List.drop_left _ _
    rw [List.cons_append] at hd
    rw [hd, h]

theorem skip_no_open (pre : Str) (p' : Str) (hp : pre = '<' :: p') (u v : Str)
    (hu : '<' ∉ u) : findCapture pre (u ++ v) = findCapture pre v := by
  induction u with
  | nil => simp
  | cons c u ih =>
    have hc : ¬ '<' = c := fun h => hu (h ▸ List.mem_cons_self c u)
    rw [List.cons_append, findCapture_cons_neg pre c (u ++ v)
      (by rw [hp]; exact leadsWith_cons_of_ne p' (u ++ v) hc)]
    exact ih fun h => hu (List.mem_cons_of_mem c h)

theorem readTs_write (body ts status : Str)
    (hb : hasRun preTs body = false)
    (h1 : ts ≠ []) (h2 : '\n' ∉ ts) (h3 : capClean ts) :
    readTs (writeMarkers body ts status) = some ts := by
  rw [readTs, writeMarkers_regroup]
  rw [findCapture_skip preTs body _
    (skip_cond preTs body _ hb (by decide) (by decide) _ rfl)]
  rw [findCapture_cons_neg preTs '\n' _
    (leadsWith_cons_of_ne _ _ (by decide))]
  rw [findCapture_cons_neg preTs '\n' _
    (leadsWith_cons_of_ne _ _ (by decide))]
  have hcap : scanCap [] (ts ++ (closer ++ ('\n' :: (preSt ++ (status ++ closer)))))
      = some ts := by
    simpa using scanCap_exact ts [] ('\n' :: (preSt ++ (status ++ closer))) h1 h2 h3
  exact findCapture_hit preTs _ ts (by decide) hcap

theorem readStatus_write (body ts status : Str)
    (hb : hasRun preSt body = false)
    (hts : '<' ∉ ts) (h1 : status ≠ []) (h2 : '\n' ∉ status) (h3 : capClean status) :
    readStatus (writeMarkers body ts status) = some status := by
  rw [readStatus, writeMarkers_regroup]
  rw [findCapture_skip preSt body _
    (skip_cond preSt body _ hb (by decide) (by decide) _ rfl)]
  rw [findCapture_cons_neg preSt '\n' _
    (leadsWith_cons_of_ne _ _ (by decide))]
  rw [findCapture_cons_neg preSt '\n' _
    (leadsWith_cons_of_ne _ _ (by decide))]
  show findCapture preSt
    ('<' :: ("!-- slack-thread-ts: ".data ++ (ts ++ (closer ++
      ('\n' :: (preSt ++ (status ++ closer))))))) = some status
  rw [findCapture_cons_neg preSt '<' _ ?hlt]
  case hlt =>
    show leadsWith preSt (preTs ++ (ts ++ (closer ++
      ('\n' :: (preSt ++ (status ++ closer)))))) = false
    rw [leadsWith_append_of_le preSt preTs _ (by decide)]
    decide
  show findCapture preSt
    ("!-- slack-thread-ts: ".data ++ (ts ++ (closer ++
      ('\n' :: (preSt ++ (status ++ closer)))))) = some status
  have hregroup : "!-- slack-thread-ts: ".data ++ (ts ++ (closer ++
      ('\n' :: (preSt ++ (status ++ closer)))))
      = ("!-- slack-thread-ts: ".data ++ (ts ++ (closer ++ ['\n'])))
        ++ (preSt ++ (status ++ closer)) := by
    simp [List.append_assoc]
  rw [hregroup, skip_no_open preSt "!-- slack-status: ".data rfl _ _ ?hnoopen]
  case hnoopen =>
    intro hmem
    rcases List.mem_append.1 hmem with hm | hm
    · revert hm; decide
    · rcases List.mem_append.1 hm with hm2 | hm2
      · exact hts hm2
      · rcases List.mem_append.1 hm2 with hm3 | hm3
        · revert hm3; decide
        · simp at hm3
  have hcap : scanCap [] (status ++ closer) = some status := by
    have := scanCap_exact status [] [] h1 h2 h3
    simpa using this
  exact findCapture_hit preSt _ status (by decide) hcap

/-! Pattern matcher for CODEOWNERS rules, from src/github.js (matchPattern). -/

def matchPattern (file pattern : Str) : Bool :=
  if pattern = "*".data then true
  else if leadsWith "*.".data pattern then endsWithC (pattern.drop 1) file
  else if endsWithC "/".data pattern then
    leadsWith pattern file || leadsWith pattern.dropLast file
  else if leadsWith "/".data pattern then
    file = pattern.drop 1 || leadsWith (pattern.drop 1 ++ "/".data) file
  else hasRun pattern file

/-! CODEOWNERS parsing and ownership resolution, from src/github.js
(parseCodeowners, getCodeOwners). -/

def jsWs (c : Char) : Bool :=
  c = ' ' || c = '\t' || c = '\n' || c = '\r' || c = '\x0b' || c = '\x0c'

/-- JS String.prototype.trim restricted to the whitespace characters above. -/
def trimC (s : Str) : Str :=
  ((s.dropWhile jsWs).reverse.dropWhile jsWs).reverse

/-- JS String.prototype.split with a single-character separator. -/
def splitOnC (sep : Char) : List Char → List Str
  | [] => [[]]
  | a :: r =>
    match splitOnC sep r with
    | [] => [[]]
    | h :: t => if a = sep then [] :: h :: t else (a :: h) :: t

/-- Splitting a (trimmed) line into whitespace-separated tokens,
the JS split on a one-or-more-whitespace regex. -/
theorem length_dropWhile_le {α : Type} (p : α → Bool) (l : List α) :
    (l.dropWhile p).length ≤ l.length := by
  induction l with
  | nil => simp [List.dropWhile]
  | cons a l ih =>
    rw [List.dropWhile_cons]
    by_cases h : p a = true
    · simp only [h, if_true, List.length_cons]
      exact Nat.le_trans ih (Nat.le_succ _)
    · simp [h]

def tokenizeF : Nat → List Char → List Str
  | 0, _ => []
  | _ + 1, [] => []
  | n + 1, c :: r =>
    if jsWs c then tokenizeF n r
    else (c :: r.takeWhile (fun x => !(jsWs x)))
      :: tokenizeF n (r.dropWhile (fun x => !(jsWs x)))

def tokenize (l : List Char) : List Str := tokenizeF l.length l

structure CoRule where
  pattern : Str
  owners : List Str
deriving DecidableEq, Repr

/-- One line of the CODEOWNERS parsing loop: skip blank lines, comment lines
and lines with fewer than two whitespace-separated tokens; keep only owner
tokens that begin with an at-sign, stripped of it; produce no rule when no
owner token remains. -/
def lineRuleSrc (line : Str) : Option CoRule :=
  let t := trimC line
  if t = [] then none
  else if leadsWith "#".data t then none
  else
    let parts := tokenize t
    if parts.length < 2 then none
    else
      let owners := (parts.tail.filter (fun o => leadsWith "@".data o)).map
        (fun o => o.drop 1)
      if owners = [] then none
      else some ⟨parts.headD [], owners⟩

/-- The rules of a CODEOWNERS file in source order (before the final reversal). -/
def forwardRules (content : Str) : List CoRule :=
  (splitOnC '\n' content).filterMap lineRuleSrc

/-- parseCodeowners from src/github.js: collect the rules in file order, then
reverse the list. -/
def parseCodeowners (content : Str) : List CoRule := (forwardRules content).reverse

/-- The first rule whose pattern matches the file, in the given rule order
(the inner loop of getCodeOwners with its break). -/
def firstMatchRule (rules : List CoRule) (f : Str) : Option CoRule :=
  rules.find? (fun r => matchPattern f r.pattern)

/-- The last rule in source order whose pattern matches the file. -/
def lastMatchRule (rules : List CoRule) (f : Str) : Option CoRule :=
  (rules.filter (fun r => matchPattern f r.pattern)).getLast?

def addOwners (acc : List Str) (os : List Str) : List Str := os.foldl oInsert acc

/-- The accumulation loop of getCodeOwners over the changed files. -/
def collectOwners (rules : List CoRule) (files : List Str) : List Str :=
  files.foldl (fun acc f =>
    match firstMatchRule rules f with
    | some r => addOwners acc r.owners
    | none => acc) []

/-- getCodeOwners from src/github.js, with the located CODEOWNERS file content
(none when no candidate path had content) and the changed files as inputs. -/
def getCodeOwners (content : Option Str) (files : List Str) : List Str :=
  match content with
  | none => []
  | some c => collectOwners (parseCodeowners c) files

theorem find?_eq_head?_filter {α : Type} (p : α → Bool) (l : List α) :
    l.find? p = (l.filter p).head? := by
  induction l with
  | nil => simp
  | cons a l ih =>
    by_cases ha : p a
    · rw [List.find?_cons_of_pos _ ha, List.filter_cons_of_pos ha]
      simp
    · rw [List.find?_cons_of_neg _ (by simp [ha]), List.filter_cons_of_neg (by simp [ha])]
      exact ih

theorem firstMatch_reverse_eq_lastMatch (rules : List CoRule) (f : Str) :
    firstMatchRule rules.reverse f = lastMatchRule rules f := by
  rw [firstMatchRule, lastMatchRule, find?_eq_head?_filter, List.filter_reverse,
    List.head?_reverse]

theorem mem_addOwners (acc os : List Str) (x : Str) :
    x ∈ addOwners acc os ↔ x ∈ acc ∨ x ∈ os := by
  unfold addOwners
  induction os generalizing acc with
  | nil => simp
  | cons o os ih =>
    rw [List.foldl_cons, ih]
    rw [mem_oInsert]
    constructor
    · rintro ((hx | rfl) | hx)
      · exact Or.inl hx
      · exact Or.inr (List.mem_cons_self _ _)
      · exact Or.inr (List.mem_cons_of_mem _ hx)
    · rintro (hx | hx)
      · exact Or.inl (Or.inl hx)
      · rcases List.mem_cons.1 hx with rfl | hx
        · exact Or.inl (Or.inr rfl)
        · exact Or.inr hx

theorem mem_collectOwners_aux (rules : List CoRule) (files : List Str)
    (acc : List Str) (x : Str) :
    x ∈ files.foldl (fun acc f =>
      match firstMatchRule rules f with
      | some r => addOwners acc r.owners
      | none => acc) acc
    ↔ x ∈ acc ∨ ∃ f ∈ files, ∃ r, firstMatchRule rules f = some r ∧ x ∈ r.owners := by
  induction files generalizing acc with
  | nil => simp
  | cons f files ih =>
    rw [List.foldl_cons]
    cases hf : firstMatchRule rules f with
    | none =>
      rw [ih]
      constructor
      · rintro (hx | hx)
        · exact Or.inl hx
        · rcases hx with ⟨g, hg, r, hr, hx⟩
          exact Or.inr ⟨g, List.mem_cons_of_mem _ hg, r, hr, hx⟩
      · rintro (hx | ⟨g, hg, r, hr, hx⟩)
        · exact Or.inl hx
        · rcases List.mem_cons.1 hg with rfl | hg
          · rw [hf] at hr; cases hr
          · exact Or.inr ⟨g, hg, r, hr, hx⟩
    | some r0 =>
      rw [ih]
      constructor
      · rintro (hx | hx)
        · rcases (mem_addOwners _ _ _).1 hx with hx | hx
          · exact Or.inl hx
          · exact Or.inr ⟨f, List.mem_cons_self _ _, r0, hf, hx⟩
        · rcases hx with ⟨g, hg, r, hr, hx⟩
          exact Or.inr ⟨g, List.mem_cons_of_mem _ hg, r, hr, hx⟩
      · rintro (hx | ⟨g, hg, r, hr, hx⟩)
        · exact Or.inl ((mem_addOwners _ _ _).2 (Or.inl hx))
        · rcases List.mem_cons.1 hg with rfl | hg
          · rw [hf] at hr
            obtain rfl : r0 = r := by injection hr
            exact Or.inl ((mem_addOwners _ _ _).2 (Or.inr hx))
          · exact Or.inr ⟨g, hg, r, hr, hx⟩

theorem mem_collectOwners (rules : List CoRule) (files : List Str) (x : Str) :
    x ∈ collectOwners rules files
    ↔ ∃ f ∈ files, ∃ r, firstMatchRule rules f = some r ∧ x ∈ r.owners := by
  rw [collectOwners, mem_collectOwners_aux]
  simp

/-! Identity mapper, from src/mapper.js. External calls are modelled as
oracles returning an `Outcome`: a thrown error is `failure`, a normal reply
is `success` with an optional value. -/

inductive Outcome where
  | success : Option Str → Outcome
  | failure : Outcome
deriving DecidableEq

/-- emailToSlackId from src/mapper.js: the Slack lookupByEmail call inside a
try/catch that turns a thrown error into a null result. -/
def emailToSlackId (dir : Str → Outcome) (email : Str) : Option Str :=
  match dir email with
  | .success v => v
  | .failure => none

/-- getGitHubUserEmail from src/mapper.js: the GitHub getByUsername call
inside a try/catch that turns a thrown error into a null result. -/
def getGitHubUserEmail (gh : Str → Outcome) (username : Str) : Option Str :=
  match gh username with
  | .success v => v
  | .failure => none

/-- The recognized configuration options (src/config.js). -/
structure Config where
  email_mappings : Str → Option Str
  default_reviewers : List Str
  auto_match_by_email : Bool

/-- mapGitHubUserToSlack from src/mapper.js: explicit mapping table first,
then auto-matching by the user's public GitHub email when enabled. -/
def mapGitHubUserToSlack (dir gh : Str → Outcome) (cfg : Config)
    (username : Str) : Option Str :=
  let fromMapping :=
    match cfg.email_mappings username with
    | some e => emailToSlackId dir e
    | none => none
  match fromMapping with
  | some id => some id
  | none =>
    if cfg.auto_match_by_email then
      match getGitHubUserEmail gh username with
      | some ge => emailToSlackId dir ge
      | none => none
    else none

/-- mapGitHubUsersToSlack from src/mapper.js: a sequential loop that pushes
only the resolved ids. -/
def mapGitHubUsersToSlack (dir gh : Str → Outcome) (cfg : Config)
    (usernames : List Str) : List Str :=
  usernames.foldl (pushResolved (mapGitHubUserToSlack dir gh cfg)) []

/-- getDefaultReviewersSlackIds from src/mapper.js: the configured default
reviewers are raw emails, resolved directly via the Slack directory. -/
def getDefaultReviewersSlackIds (dir : Str → Outcome) (defaults : List Str) :
    List Str :=
  defaults.foldl (pushResolved (emailToSlackId dir)) []

theorem mapUsers_eq_filterMap (dir gh : Str → Outcome) (cfg : Config)
    (usernames : List Str) :
    mapGitHubUsersToSlack dir gh cfg usernames
      = usernames.filterMap (mapGitHubUserToSlack dir gh cfg) := by
  rw [mapGitHubUsersToSlack, foldl_push_filterMap]
  simp

theorem defaults_eq_filterMap (dir : Str → Outcome) (defaults : List Str) :
    getDefaultReviewersSlackIds dir defaults
      = defaults.filterMap (emailToSlackId dir) := by
  rw [getDefaultReviewersSlackIds, foldl_push_filterMap]
  simp

/-! PR status values. Modelled from the spec: the PR_STATUS constants file is
not under src/ (only its caller is); the enumeration values are the status
column of the spec's status display table. -/

def REVIEW_PENDING : Str := "review-pending".data

def IN_REVIEW : Str := "in-review".data

def APPROVED : Str := "approved".data

def CHANGES_REQUESTED : Str := "changes-requested".data

/-- A comment-like event (issue comment, review submission, line comment),
as parsed by parseCommentData in src/github.js. -/
structure CommentEv where
  author : Str
  body : Str
  reviewState : Option Str

/-- The status transition of the comment handler (entry file): a review
verdict forces the matching status; otherwise only review-pending moves,
to in-review. -/
def nextStatus (reviewState : Option Str) (current : Str) : Str :=
  if reviewState = some "approved".data then APPROVED
  else if reviewState = some "changes_requested".data then CHANGES_REQUESTED
  else if current = REVIEW_PENDING then IN_REVIEW
  else current

def isVerdict (reviewState : Option Str) : Bool :=
  reviewState = some "approved".data || reviewState = some "changes_requested".data

/-- The thread-reply target set of the comment handler: the PR author for a
review verdict, plus every mention of the comment body, deduplicated. -/
def commentTargets (ev : CommentEv) (prAuthor : Str) : List Str :=
  dedupF ((if isVerdict ev.reviewState then [prAuthor] else []) ++ extractMentions ev.body)

/-- Observable outcome of one run of the comment handler. -/
structure HCResult where
  threadLookup : Bool
  statusLookup : Bool
  statusWritten : Option Str
  headUpdated : Bool
  reply : Option (List Str)
deriving DecidableEq

/-- The thread-reply decision of the comment handler: no reply when the
target set is empty or when no target resolves to a Slack id. -/
def replyOf (ev : CommentEv) (prAuthor : Str) (dir gh : Str → Outcome)
    (cfg : Config) : Option (List Str) :=
  let targets := commentTargets ev prAuthor
  if targets = [] then none
  else
    let ids := mapGitHubUsersToSlack dir gh cfg targets
    if ids = [] then none else some ids

/-- handleComment from the entry file, with the fetched thread pointer, the
persisted status and the PR author as inputs and the external calls as
oracles. -/
def handleComment (ev : CommentEv) (threadTs : Option Str) (currentStatus : Str)
    (prAuthor : Str) (dir gh : Str → Outcome) (cfg : Config) : HCResult :=
  if ev.author = "github-actions[bot]".data then
    ⟨false, false, none, false, none⟩
  else
    match threadTs with
    | none => ⟨true, false, none, false, none⟩
    | some _ =>
      let ns := nextStatus ev.reviewState currentStatus
      let changed := ns ≠ currentStatus
      ⟨true, true, if changed then some ns else none, changed,
        replyOf ev prAuthor dir gh cfg⟩

/-! PR-opened handler, from the entry file. -/

def joinPlus : List Str → Str
  | [] => []
  | [a] => a
  | a :: rest => a ++ " + ".data ++ joinPlus rest

/-- Observable outcome of one run of the PR-opened handler. -/
structure POResult where
  reviewerIds : List Str
  source : Str
  headSent : Bool
  persistedStatus : Str
deriving DecidableEq

theorem mem_foldl_oInsert_filter (author : Str) (l acc : List Str) (x : Str) :
    x ∈ l.foldl (fun acc r => if r ≠ author then oInsert acc r else acc) acc
      ↔ x ∈ acc ∨ (x ∈ l ∧ x ≠ author) := by
  induction l generalizing acc with
  | nil => simp
  | cons a l ih =>
    rw [List.foldl_cons]
    by_cases ha : a ≠ author
    · rw [if_pos ha, ih]
      rw [mem_oInsert]
      constructor
      · rintro ((hx | rfl) | ⟨hx, hxa⟩)
        · exact Or.inl hx
        · exact Or.inr ⟨List.mem_cons_self _ _, ha⟩
        · exact Or.inr ⟨List.mem_cons_of_mem _ hx, hxa⟩
      · rintro (hx | ⟨hx, hxa⟩)
        · exact Or.inl (Or.inl hx)
        · rcases List.mem_cons.1 hx with rfl | hx
          · exact Or.inl (Or.inr rfl)
          · exact Or.inr ⟨hx, hxa⟩
    · rw [if_neg ha, ih]
      rw [not_not] at ha
      subst ha
      constructor
      · rintro (hx | ⟨hx, hxa⟩)
        · exact Or.inl hx
        · exact Or.inr ⟨List.mem_cons_of_mem _ hx, hxa⟩
      · rintro (hx | ⟨hx, hxa⟩)
        · exact Or.inl hx
        · rcases List.mem_cons.1 hx with rfl | hx
          · exact absurd rfl hxa
          · exact Or.inr ⟨hx, hxa⟩

/-- The insertion-ordered set fold adding the elements of `l` other than the
author (the forEach add loops of the PR-opened handler). -/
def dropAuthorSet (author : Str) (l : List Str) (acc : List Str) : List Str :=
  l.foldl (fun acc r => if r ≠ author then oInsert acc r else acc) acc

/-- The merged reviewer set of the PR-opened handler: assigned reviewers then
code owners, each minus the author, in insertion order. -/
def mergedReviewers (reviewers : List Str) (author : Str)
    (codeOwners : List Str) : List Str :=
  let s1 := if reviewers ≠ [] then dropAuthorSet author reviewers [] else []
  if codeOwners ≠ [] then dropAuthorSet author codeOwners s1 else s1

/-- handlePROpened from the entry file: merge assigned reviewers and code
owners (each minus the author) into an insertion-ordered set, resolve them,
then union in the default reviewers by Slack id, tracking provenance. -/
def handlePROpened (reviewers : List Str) (author : Str) (codeOwners : List Str)
    (dir gh : Str → Outcome) (cfg : Config) : POResult :=
  let allRev := mergedReviewers reviewers author codeOwners
  let src2 := (if reviewers ≠ [] then ["reviewers".data] else [])
    ++ (if codeOwners ≠ [] then ["codeowners".data] else [])
  let ids0 := if allRev ≠ [] then mapGitHubUsersToSlack dir gh cfg allRev else []
  let source0 := if allRev ≠ [] then joinPlus src2 else "none".data
  if cfg.default_reviewers ≠ [] then
    let dIds := getDefaultReviewersSlackIds dir cfg.default_reviewers
    ⟨dedupF (ids0 ++ dIds),
     if dIds ≠ [] then joinPlus (src2 ++ ["default".data]) else source0,
     true, REVIEW_PENDING⟩
  else ⟨ids0, source0, true, REVIEW_PENDING⟩

theorem mem_dropAuthorSet (author : Str) (l acc : List Str) (x : Str) :
    x ∈ dropAuthorSet author l acc ↔ x ∈ acc ∨ (x ∈ l ∧ x ≠ author) :=
  mem_foldl_oInsert_filter author l acc x

theorem mem_mergedReviewers (reviewers : List Str) (author : Str)
    (codeOwners : List Str) (x : Str) :
    x ∈ mergedReviewers reviewers author codeOwners ↔
      ((x ∈ reviewers ∨ x ∈ codeOwners) ∧ x ≠ author) := by
  simp only [mergedReviewers]
  have hs1 : ∀ y, (y ∈ (if reviewers ≠ [] then dropAuthorSet author reviewers []
      else []) ↔ (y ∈ reviewers ∧ y ≠ author)) := by
    intro y
    by_cases hr : reviewers = []
    · subst hr
      rw [if_neg (by simp)]
      simp
    · rw [if_pos hr, mem_dropAuthorSet]
      simp
  by_cases ho : codeOwners = []
  · subst ho
    rw [if_neg (by simp), hs1]
    simp
  · rw [if_pos ho, mem_dropAuthorSet, hs1]
    constructor
    · rintro (⟨hx, hxa⟩ | ⟨hx, hxa⟩)
      · exact ⟨Or.inl hx, hxa⟩
      · exact ⟨Or.inr hx, hxa⟩
    · rintro ⟨hx | hx, hxa⟩
      · exact Or.inl ⟨hx, hxa⟩
      · exact Or.inr ⟨hx, hxa⟩

theorem mem_resolved_opt (dir gh : Str → Outcome) (cfg : Config)
    (allRev : List Str) (x : Str) :
    x ∈ (if allRev ≠ [] then mapGitHubUsersToSlack dir gh cfg allRev else []) ↔
      ∃ u ∈ allRev, mapGitHubUserToSlack dir gh cfg u = some x := by
  by_cases h : allRev = []
  · subst h
    simp
  · rw [if_pos h, mapUsers_eq_filterMap]
    simp [List.mem_filterMap]

/-! Shared concrete fixtures for witnesses. -/

def noDir : Str → Outcome := fun _ => Outcome.failure

def emptyCfg : Config := ⟨fun _ => none, [], true⟩

/-- Claim C5: the pattern matcher follows this precedence: a lone star matches
every file; a star-dot pattern matches exactly the paths ending in the
extension; a pattern ending in a slash matches exactly the paths starting with
that prefix with or without the trailing slash; a pattern starting with a
slash matches exactly the path equal to the anchored path or having it as a
directory prefix; any other pattern matches exactly the paths containing it as
a substring. -/
theorem c5_matchPattern (f p : Str) :
    (p = "*".data → matchPattern f p = true)
    ∧ (p ≠ "*".data → leadsWith "*.".data p = true →
        (matchPattern f p = true ↔ ∃ u, f = u ++ p.drop 1))
    ∧ (p ≠ "*".data → leadsWith "*.".data p = false → endsWithC "/".data p = true →
        (matchPattern f p = true ↔ (∃ v, f = p ++ v) ∨ ∃ v, f = p.dropLast ++ v))
    ∧ (p ≠ "*".data → leadsWith "*.".data p = false → endsWithC "/".data p = false →
        leadsWith "/".data p = true →
        (matchPattern f p = true ↔
          (f = p.drop 1 ∨ ∃ v, f = (p.drop 1 ++ "/".data) ++ v)))
    ∧ (p ≠ "*".data → leadsWith "*.".data p = false → endsWithC "/".data p = false →
        leadsWith "/".data p = false →
        (matchPattern f p = true ↔ ∃ u v, f = u ++ p ++ v)) := by
  refine ⟨?_, ?_, ?_, ?_, ?_⟩
  · intro h1
    rw [matchPattern, if_pos h1]
  · intro h1 h2
    rw [matchPattern, if_neg h1, if_pos h2]
    exact endsWithC_iff _ _
  · intro h1 h2 h3
    rw [matchPattern, if_neg h1, if_neg (by simp [h2]), if_pos h3]
    simp [leadsWith_iff]
  · intro h1 h2 h3 h4
    rw [matchPattern, if_neg h1, if_neg (by simp [h2]), if_neg (by simp [h3]),
      if_pos h4]
    simp [leadsWith_iff]
  · intro h1 h2 h3 h4
    rw [matchPattern, if_neg h1, if_neg (by simp [h2]), if_neg (by simp [h3]),
      if_neg (by simp [h4])]
    exact hasRun_iff _ _

theorem c5_matchPattern_w : matchPattern "src/util/a.js".data "*.js".data = true :=
  ((c5_matchPattern "src/util/a.js".data "*.js".data).2.1 (by decide) (by decide)).2
    ⟨"src/util/a".data, by decide⟩

/-- Claim C10: CODEOWNERS parsing skips blank lines, comment lines and lines
with fewer than two whitespace-separated tokens; only at-sign owner tokens are
kept, stripped of the at-sign; a line with no at-sign owner token produces no
rule. -/
theorem c10_parse_lines (line : Str) :
    (trimC line = [] → lineRuleSrc line = none)
    ∧ (leadsWith "#".data (trimC line) = true → lineRuleSrc line = none)
    ∧ ((tokenize (trimC line)).length < 2 → lineRuleSrc line = none)
    ∧ (((tokenize (trimC line)).tail.filter (fun o => leadsWith "@".data o)).map
          (fun o => o.drop 1) = [] → lineRuleSrc line = none)
    ∧ (∀ r, lineRuleSrc line = some r →
        trimC line ≠ [] ∧ leadsWith "#".data (trimC line) = false ∧
        2 ≤ (tokenize (trimC line)).length ∧
        r.pattern = (tokenize (trimC line)).headD [] ∧
        r.owners = ((tokenize (trimC line)).tail.filter
          (fun o => leadsWith "@".data o)).map (fun o => o.drop 1) ∧
        r.owners ≠ []) := by
  refine ⟨?_, ?_, ?_, ?_, ?_⟩
  · intro h
    rw [lineRuleSrc, if_pos h]
  · intro h
    rw [lineRuleSrc]
    by_cases h0 : trimC line = []
    · rw [if_pos h0]
    · rw [if_neg h0, if_pos h]
  · intro h
    rw [lineRuleSrc]
    by_cases h0 : trimC line = []
    · rw [if_pos h0]
    · rw [if_neg h0]
      by_cases h1 : leadsWith "#".data (trimC line) = true
      · rw [if_pos h1]
      · rw [if_neg h1, if_pos h]
  · intro h
    rw [lineRuleSrc]
    by_cases h0 : trimC line = []
    · rw [if_pos h0]
    · rw [if_neg h0]
      by_cases h1 : leadsWith "#".data (trimC line) = true
      · rw [if_pos h1]
      · rw [if_neg h1]
        by_cases h2 : (tokenize (trimC line)).length < 2
        · rw [if_pos h2]
        · rw [if_neg h2, if_pos h]
  · intro r hr
    rw [lineRuleSrc] at hr
    by_cases h0 : trimC line = []
    · rw [if_pos h0] at hr; cases hr
    · rw [if_neg h0] at hr
      by_cases h1 : leadsWith "#".data (trimC line) = true
      · rw [if_pos h1] at hr; cases hr
      · rw [if_neg h1] at hr
        by_cases h2 : (tokenize (trimC line)).length < 2
        · rw [if_pos h2] at hr; cases hr
        · rw [if_neg h2] at hr
          by_cases h3 : ((tokenize (trimC line)).tail.filter
              (fun o => leadsWith "@".data o)).map (fun o => o.drop 1) = []
          · rw [if_pos h3] at hr; cases hr
          · rw [if_neg h3] at hr
            refine ⟨h0, by simpa using h1, by omega, ?_, ?_, ?_⟩
            · obtain rfl : (⟨(tokenize (trimC line)).headD [],
                  ((tokenize (trimC line)).tail.filter
                    (fun o => leadsWith "@".data o)).map (fun o => o.drop 1)⟩ : CoRule)
                  = r := by injection hr
              rfl
            · obtain rfl : (⟨(tokenize (trimC line)).headD [],
                  ((tokenize (trimC line)).tail.filter
                    (fun o => leadsWith "@".data o)).map (fun o => o.drop 1)⟩ : CoRule)
                  = r := by injection hr
              rfl
            · obtain rfl : (⟨(tokenize (trimC line)).headD [],
                  ((tokenize (trimC line)).tail.filter
                    (fun o => leadsWith "@".data o)).map (fun o => o.drop 1)⟩ : CoRule)
                  = r := by injection hr
              exact h3

theorem c10_parse_lines_w : lineRuleSrc "# a comment line".data = none :=
  (c10_parse_lines "# a comment line".data).2.1 (by decide)

/-- Claim C4: the ownership resolver evaluates rules in reversed file order so
the last matching rule in source order wins per file, takes each file's first
matching rule's owners under that order, unions them over the files, and
returns the empty set when no ownership file content was found or no file
matched. -/
theorem c4_getCodeOwners (content : Option Str) (files : List Str) :
    (content = none → getCodeOwners content files = [])
    ∧ (∀ c, content = some c →
        (∀ x, x ∈ getCodeOwners content files ↔
          ∃ f ∈ files, ∃ r, lastMatchRule (forwardRules c) f = some r ∧ x ∈ r.owners)
        ∧ ((∀ f ∈ files, lastMatchRule (forwardRules c) f = none) →
            getCodeOwners content files = [])) := by
  constructor
  · rintro rfl; rfl
  · rintro c rfl
    have hmem : ∀ x, x ∈ getCodeOwners (some c) files ↔
        ∃ f ∈ files, ∃ r, lastMatchRule (forwardRules c) f = some r ∧ x ∈ r.owners := by
      intro x
      rw [show getCodeOwners (some c) files
        = collectOwners (parseCodeowners c) files from rfl]
      rw [mem_collectOwners]
      rw [show parseCodeowners c = (forwardRules c).reverse from rfl]
      simp only [firstMatch_reverse_eq_lastMatch]
    refine ⟨hmem, fun hall => ?_⟩
    rw [List.eq_nil_iff_forall_not_mem]
    intro x hx
    rcases (hmem x).1 hx with ⟨f, hf, r, hr, _⟩
    rw [hall f hf] at hr
    cases hr

def coContent : Str :=
  "* @alice\nsrc/ @bob @cara\n# note\ndocs/readme.md carol".data

theorem c4_getCodeOwners_w :
    "bob".data ∈ getCodeOwners (some coContent) ["src/main.js".data] :=
  (((c4_getCodeOwners (some coContent) ["src/main.js".data]).2 coContent rfl).1
      "bob".data).2
    ⟨"src/main.js".data, by decide,
      ⟨"src/".data, ["bob".data, "cara".data]⟩, by decide, by decide⟩

/-- Claim C1: a review submission with verdict approved or changes_requested
always forces the matching status regardless of the current one; any other
comment-like event moves review-pending to in-review and leaves every other
status unchanged (so the status newly becomes in-review exactly from
review-pending). -/
theorem c1_nextStatus (rs : Option Str) (cur : Str) :
    (rs = some "approved".data → nextStatus rs cur = "approved".data)
    ∧ (rs = some "changes_requested".data →
        nextStatus rs cur = "changes-requested".data)
    ∧ (rs ≠ some "approved".data → rs ≠ some "changes_requested".data →
        ((cur = "review-pending".data → nextStatus rs cur = "in-review".data)
         ∧ (cur ≠ "review-pending".data → nextStatus rs cur = cur)
         ∧ (nextStatus rs cur ≠ cur ↔ cur = "review-pending".data))) := by
  refine ⟨?_, ?_, ?_⟩
  · intro h
    rw [nextStatus, if_pos h]
    rfl
  · intro h
    rw [nextStatus, if_neg (fun hc => by rw [h] at hc; exact absurd hc (by decide)),
      if_pos h]
    rfl
  · intro h1 h2
    rw [nextStatus, if_neg h1, if_neg h2,
      show REVIEW_PENDING = "review-pending".data from rfl,
      show IN_REVIEW = "in-review".data from rfl]
    refine ⟨fun hc => by rw [if_pos hc], fun hc => by rw [if_neg hc], ?_⟩
    by_cases hc : cur = "review-pending".data
    · rw [if_pos hc]
      constructor
      · intro _; exact hc
      · intro _; rw [hc]; decide
    · rw [if_neg hc]
      simp [hc]

theorem c1_nextStatus_w :
    nextStatus (some "commented".data) "review-pending".data = "in-review".data :=
  ((c1_nextStatus (some "commented".data) "review-pending".data).2.2
    (by decide) (by decide)).1 rfl

/-- Claim C9: a comment event authored by the GitHub Actions bot makes the
handler return before reading the thread pointer: no status read or write, no
head-message update, no thread reply. -/
theorem c9_bot_skips (ev : CommentEv) (threadTs : Option Str) (cur prAuthor : Str)
    (dir gh : Str → Outcome) (cfg : Config)
    (h : ev.author = "github-actions[bot]".data) :
    handleComment ev threadTs cur prAuthor dir gh cfg
      = ⟨false, false, none, false, none⟩ := by
  rw [handleComment.eq_def, if_pos h]

theorem c9_bot_skips_w :
    handleComment ⟨"github-actions[bot]".data, "ping @alice".data, none⟩
      (some "17.5".data) "review-pending".data "alice".data noDir noDir emptyCfg
      = ⟨false, false, none, false, none⟩ :=
  c9_bot_skips _ _ _ _ _ _ _ rfl

/-- Claim C6: identity resolution tries the explicit mapping table first and
auto-matching by public email only when enabled and the table step yielded
nothing; misses never fail; the batch variant resolves per handle in input
order, drops unresolved handles instead of null-padding, and a lookup that
throws is a miss that does not abort the batch. -/
theorem c6_mapper (dir gh gh2 : Str → Outcome) (cfg : Config) (u e i : Str)
    (l : List Str) :
    (mapGitHubUsersToSlack dir gh cfg l
      = l.filterMap (mapGitHubUserToSlack dir gh cfg))
    ∧ (cfg.email_mappings u = some e → dir e = Outcome.success (some i) →
        mapGitHubUserToSlack dir gh cfg u = some i)
    ∧ (cfg.auto_match_by_email = false →
        mapGitHubUserToSlack dir gh cfg u = mapGitHubUserToSlack dir gh2 cfg u)
    ∧ (cfg.auto_match_by_email = false → cfg.email_mappings u = none →
        mapGitHubUserToSlack dir gh cfg u = none)
    ∧ (dir e = Outcome.failure → emailToSlackId dir e = none)
    ∧ (mapGitHubUserToSlack dir gh cfg u = none →
        mapGitHubUsersToSlack dir gh cfg (u :: l)
          = mapGitHubUsersToSlack dir gh cfg l) := by
  refine ⟨mapUsers_eq_filterMap dir gh cfg l, ?_, ?_, ?_, ?_, ?_⟩
  · intro h1 h2
    simp [mapGitHubUserToSlack, emailToSlackId, h1, h2]
  · intro h
    simp [mapGitHubUserToSlack, h]
  · intro h h2
    simp [mapGitHubUserToSlack, h, h2]
  · intro h
    simp [emailToSlackId, h]
  · intro h
    rw [mapUsers_eq_filterMap, mapUsers_eq_filterMap, List.filterMap_cons, h]

def exDir6 : Str → Outcome := fun e =>
  if e = "a@x".data then Outcome.success (some "UA".data) else Outcome.failure

def exCfg6 : Config :=
  ⟨fun u => if u = "alice".data then some "a@x".data else none, [], false⟩

theorem c6_mapper_w :
    mapGitHubUserToSlack exDir6 noDir exCfg6 "alice".data = some "UA".data :=
  (c6_mapper exDir6 noDir noDir exCfg6 "alice".data "a@x".data "UA".data []).2.1
    (by decide) (by decide)

/-- Claim C7: with an existing thread pointer, the thread-reply target set is
the PR author exactly when the event carries an approved or changes_requested
verdict, together with every mention extracted from the comment body; when
that set is empty no thread reply is sent; a non-review comment targets the
author only when the author is mentioned. -/
theorem c7_reply_targets (ev : CommentEv) (t : Str) (cur prAuthor : Str)
    (dir gh : Str → Outcome) (cfg : Config) :
    (∀ x, x ∈ commentTargets ev prAuthor ↔
      ((isVerdict ev.reviewState = true ∧ x = prAuthor)
        ∨ x ∈ extractMentions ev.body))
    ∧ (commentTargets ev prAuthor = [] →
        (handleComment ev (some t) cur prAuthor dir gh cfg).reply = none)
    ∧ (isVerdict ev.reviewState = true → prAuthor ∈ commentTargets ev prAuthor)
    ∧ (isVerdict ev.reviewState = false →
        (prAuthor ∈ commentTargets ev prAuthor ↔
          prAuthor ∈ extractMentions ev.body)) := by
  have hmem : ∀ x, x ∈ commentTargets ev prAuthor ↔
      ((isVerdict ev.reviewState = true ∧ x = prAuthor)
        ∨ x ∈ extractMentions ev.body) := by
    intro x
    rw [commentTargets, mem_dedupF, List.mem_append]
    by_cases hv : isVerdict ev.reviewState = true
    · rw [if_pos hv]
      simp [hv]
    · rw [if_neg hv]
      simp [hv]
  refine ⟨hmem, ?_, ?_, ?_⟩
  · intro h
    rw [handleComment.eq_def]
    by_cases hbot : ev.author = "github-actions[bot]".data
    · rw [if_pos hbot]
    · rw [if_neg hbot]
      show replyOf ev prAuthor dir gh cfg = none
      simp only [replyOf]
      rw [if_pos h]
  · intro hv
    exact (hmem prAuthor).2 (Or.inl ⟨hv, rfl⟩)
  · intro hv
    constructor
    · intro hp
      rcases (hmem prAuthor).1 hp with ⟨hv2, _⟩ | hp2
      · rw [hv] at hv2
        cases hv2
      · exact hp2
    · intro hp
      exact (hmem prAuthor).2 (Or.inr hp)

theorem c7_reply_targets_w :
    (handleComment ⟨"bob".data, "looks fine".data, none⟩ (some "3.4".data)
      "in-review".data "alice".data noDir noDir emptyCfg).reply = none :=
  (c7_reply_targets ⟨"bob".data, "looks fine".data, none⟩ "3.4".data
    "in-review".data "alice".data noDir noDir emptyCfg).2.1 (by decide)

/-- Claim C8: extractMentions returns each handle at most once, in order of
first appearance in the text, and every returned handle is nonempty and
starts and ends with an alphanumeric character (so no leading or trailing
hyphen and no partial token split across one). -/
theorem c8_extractMentions (t : Str) :
    (extractMentions t).Nodup
    ∧ (∀ h, h ∈ extractMentions t ↔ h ∈ scanMentions t)
    ∧ (extractMentions t).Pairwise
        (fun x y => firstIdx x (scanMentions t) < firstIdx y (scanMentions t))
    ∧ (∀ h ∈ extractMentions t, ∃ c g, h = c :: g ∧ isAlnum c = true ∧
        ∃ d, h.getLast? = some d ∧ isAlnum d = true) := by
  refine ⟨nodup_dedupF _, fun h => mem_dedupF _ h, pairwise_firstIdx_dedupF _, ?_⟩
  intro h hh
  rcases scanMentions_shape t h ((mem_dedupF _ h).1 hh) with ⟨c, g, rfl, hc, hlast⟩
  exact ⟨c, g, rfl, hc, hlast⟩

def exText : Str := "hi @bob-x see @alice, thanks @bob-x".data

theorem c8_extractMentions_w :
    ∃ c g, "bob-x".data = c :: g ∧ isAlnum c = true ∧
      ∃ d, ("bob-x".data).getLast? = some d ∧ isAlnum d = true :=
  (c8_extractMentions exText).2.2.2 "bob-x".data (by decide)

/-! Fixtures for the reviewer-aggregation example of claim C2. -/

def exDir2 : Str → Outcome := fun e =>
  if e = "a@x".data then Outcome.success (some "UA".data)
  else if e = "b@x".data then Outcome.success (some "UB".data)
  else if e = "c@x".data then Outcome.success (some "UC".data)
  else if e = "d@x".data then Outcome.success (some "UD".data)
  else Outcome.failure

def exCfg2 : Config :=
  ⟨fun u =>
    if u = "A".data then some "a@x".data
    else if u = "B".data then some "b@x".data
    else if u = "C".data then some "c@x".data
    else none,
   ["d@x".data], true⟩

def dupDir : Str → Outcome := fun e =>
  if e = "u@x".data then Outcome.success (some "S1".data)
  else if e = "v@x".data then Outcome.success (some "S1".data)
  else Outcome.failure

def dupCfg : Config :=
  ⟨fun u =>
    if u = "u".data then some "u@x".data
    else if u = "v".data then some "v@x".data
    else none,
   [], true⟩

/-- Claim C2 counterexample: with no default reviewers configured, two
distinct handles resolving to the same chat identity are both kept, so the
notified reviewer list is not deduplicated by chat identity. -/
theorem c2_counterexample :
    (handlePROpened ["u".data, "v".data] "w".data [] dupDir noDir
      dupCfg).reviewerIds = ["S1".data, "S1".data]
    ∧ ¬ (handlePROpened ["u".data, "v".data] "w".data [] dupDir noDir
      dupCfg).reviewerIds.Nodup := by
  constructor
  · decide
  · decide

/-- Claim C2 (amended): the notified reviewer list contains exactly the union
of the assigned reviewers minus the author, the code owners minus the author
(both resolved per handle) and the default reviewers resolved from email; it
is deduplicated by code-host handle before resolution, and additionally by
chat identity exactly when default reviewers are configured; the notification
always proceeds (also with an empty list, addressing the channel only); on the
claim's example the result is the resolved ids of B, C, D, excludes A's id,
with provenance label reviewers + codeowners + default. -/
theorem c2_aggregation (reviewers : List Str) (author : Str)
    (codeOwners : List Str) (dir gh : Str → Outcome) (cfg : Config) :
    (∀ x, x ∈ (handlePROpened reviewers author codeOwners dir gh cfg).reviewerIds ↔
      ((∃ r ∈ reviewers, r ≠ author ∧ mapGitHubUserToSlack dir gh cfg r = some x)
       ∨ (∃ o ∈ codeOwners, o ≠ author ∧ mapGitHubUserToSlack dir gh cfg o = some x)
       ∨ (∃ e ∈ cfg.default_reviewers, emailToSlackId dir e = some x)))
    ∧ (cfg.default_reviewers ≠ [] →
        (handlePROpened reviewers author codeOwners dir gh cfg).reviewerIds.Nodup)
    ∧ (handlePROpened reviewers author codeOwners dir gh cfg).headSent = true
    ∧ ((handlePROpened ["A".data, "B".data] "A".data ["B".data, "C".data]
          exDir2 noDir exCfg2).reviewerIds = ["UB".data, "UC".data, "UD".data]
        ∧ (handlePROpened ["A".data, "B".data] "A".data ["B".data, "C".data]
            exDir2 noDir exCfg2).source
          = "reviewers + codeowners + default".data
        ∧ "UA".data ∉ (handlePROpened ["A".data, "B".data] "A".data
            ["B".data, "C".data] exDir2 noDir exCfg2).reviewerIds) := by
  have hsrc : ∀ x,
      (∃ u ∈ mergedReviewers reviewers author codeOwners,
        mapGitHubUserToSlack dir gh cfg u = some x) ↔
      ((∃ r ∈ reviewers, r ≠ author ∧ mapGitHubUserToSlack dir gh cfg r = some x)
       ∨ (∃ o ∈ codeOwners, o ≠ author ∧
            mapGitHubUserToSlack dir gh cfg o = some x)) := by
    intro x
    constructor
    · rintro ⟨u, hu, hmap⟩
      rcases (mem_mergedReviewers _ _ _ _).1 hu with ⟨hu2 | hu2, hua⟩
      · exact Or.inl ⟨u, hu2, hua, hmap⟩
      · exact Or.inr ⟨u, hu2, hua, hmap⟩
    · rintro (⟨r, hr, hra, hmap⟩ | ⟨o, ho, hoa, hmap⟩)
      · exact ⟨r, (mem_mergedReviewers _ _ _ _).2 ⟨Or.inl hr, hra⟩, hmap⟩
      · exact ⟨o, (mem_mergedReviewers _ _ _ _).2 ⟨Or.inr ho, hoa⟩, hmap⟩
  refine ⟨?_, ?_, ?_, by decide, by decide, by decide⟩
  · intro x
    simp only [handlePROpened]
    by_cases hdef : cfg.default_reviewers = []
    · rw [if_neg (by simp [hdef])]
      show x ∈ (if mergedReviewers reviewers author codeOwners ≠ [] then
          mapGitHubUsersToSlack dir gh cfg (mergedReviewers reviewers author codeOwners)
          else []) ↔ _
      rw [mem_resolved_opt, hsrc x, hdef]
      simp
    · rw [if_pos hdef]
      show x ∈ dedupF ((if mergedReviewers reviewers author codeOwners ≠ [] then
          mapGitHubUsersToSlack dir gh cfg (mergedReviewers reviewers author codeOwners)
          else [])
          ++ getDefaultReviewersSlackIds dir cfg.default_reviewers) ↔ _
      rw [mem_dedupF, List.mem_append, mem_resolved_opt, hsrc x,
        defaults_eq_filterMap]
      simp only [List.mem_filterMap]
      constructor
      · rintro ((h | h) | h)
        · exact Or.inl h
        · exact Or.inr (Or.inl h)
        · exact Or.inr (Or.inr h)
      · rintro (h | h | h)
        · exact Or.inl (Or.inl h)
        · exact Or.inl (Or.inr h)
        · exact Or.inr h
  · intro hdef
    simp only [handlePROpened]
    rw [if_pos hdef]
    exact nodup_dedupF _
  · simp only [handlePROpened]
    by_cases hdef : cfg.default_reviewers = []
    · rw [if_neg (by simp [hdef])]
    · rw [if_pos hdef]

theorem c2_aggregation_w :
    (handlePROpened ["A".data, "B".data] "A".data ["B".data, "C".data]
      exDir2 noDir exCfg2).reviewerIds.Nodup :=
  (c2_aggregation ["A".data, "B".data] "A".data ["B".data, "C".data]
    exDir2 noDir exCfg2).2.1 (by decide)

def cBody : Str := "<!-- slack-thread-ts: 999 -->".data

/-- Claim C3 counterexample: when the body already contains a thread-ts
marker, writing new markers and re-reading returns the pre-existing
timestamp, not the written one. -/
theorem c3_counterexample :
    readTs (writeMarkers cBody "123.45".data "in-review".data) = some "999".data
    ∧ ("999".data : Str) ≠ "123.45".data := by
  constructor
  · decide
  · decide

/-- Claim C3 (amended): writing the two markers into a body and re-reading
recovers exactly the written pair, provided no marker can already be
extracted from the body (neither marker prefix completes a match in it), the
timestamp and status are non-empty, contain no newline, contain no early
occurrence of the closing delimiter, and the timestamp contains no opening
angle bracket; in particular this holds for ts 123.45 and status in-review
(see the witness). -/
theorem c3_roundtrip (body ts status : Str)
    (hb1 : hasRun preTs body = false) (hb2 : hasRun preSt body = false)
    (h1 : ts ≠ []) (h2 : '\n' ∉ ts) (h3 : capClean ts) (h4 : '<' ∉ ts)
    (h5 : status ≠ []) (h6 : '\n' ∉ status) (h7 : capClean status) :
    readTs (writeMarkers body ts status) = some ts
    ∧ readStatus (writeMarkers body ts status) = some status :=
  ⟨readTs_write body ts status hb1 h1 h2 h3,
   readStatus_write body ts status hb2 h4 h5 h6 h7⟩

theorem c3_roundtrip_w :
    readTs (writeMarkers "Fix the race in the watcher".data "123.45".data
      "in-review".data) = some ("123.45".data)
    ∧ readStatus (writeMarkers "Fix the race in the watcher".data "123.45".data
      "in-review".data) = some ("in-review".data) :=
  c3_roundtrip "Fix the race in the watcher".data "123.45".data "in-review".data
    (by decide) (by decide) (by decide) (by decide) (by decide) (by decide)
    (by decide) (by decide) (by decide)

end NotifyPR
